import Mathlib

/-!
# Verification of the phonon core (`phonons.py`)

Shallow embedding of the spring-list builder, dynamical-matrix evaluator,
frequency solver, work-partition schemes, band-order resolver and the
symmetry-consensus pick of `phonons.py`, together with proofs and
refutations of the specified properties.

Machine floats are modelled by real numbers; NumPy array slices by plain
functions; the MPI loops by explicit index arithmetic over the same ranges.
-/

namespace Phonons

/-- A realized coupling emitted by the spring-list builder:
atom indices, integer lattice translation `R` (row of `copies`), and the
3×3 mass-normalized coupling tensor `C` (`const[n]` in the source). -/
structure Spring where
  na1 : ℕ
  na2 : ℕ
  R : ℤ × ℤ × ℤ
  C : ℕ → ℕ → ℝ

/-- Input bundle of `dynamical_matrix(comm, phid, amass, at, tau, eps)`:
force constants `phid[na1, na2, m1, m2, m3, i, j]`, per-atom masses,
lattice vectors `lat[row, col]` (the source's `at`), atomic positions
`tau[atom, col]`. -/
structure PhInput where
  natoms : ℕ
  nr1 : ℕ
  nr2 : ℕ
  nr3 : ℕ
  phid : ℕ → ℕ → ℕ → ℕ → ℕ → ℕ → ℕ → ℝ
  amass : ℕ → ℝ
  lat : ℕ → ℕ → ℝ
  tau : ℕ → ℕ → ℝ

/-- Source `supercells = [-1, 0, 1]`: indices of central and neighboring supercells. -/
def supercells : List ℤ := [-1, 0, 1]

/-- The 27 equivalent unit cells within the considered supercells
(`copies` in the source), in the source's enumeration order. -/
def copies (p : PhInput) (m1 m2 m3 : ℕ) : List (ℤ × ℤ × ℤ) :=
  supercells.bind fun M1 =>
    supercells.bind fun M2 =>
      supercells.map fun M3 =>
        ((m1 : ℤ) + M1 * p.nr1, (m2 : ℤ) + M2 * p.nr2, (m3 : ℤ) + M3 * p.nr3)

/-- Translation vector of one copy: `np.dot(copy, at)`, component `j`. -/
def shift (p : PhInput) (c : ℤ × ℤ × ℤ) (j : ℕ) : ℝ :=
  (c.1 : ℝ) * p.lat 0 j + (c.2.1 : ℝ) * p.lat 1 j + (c.2.2 : ℝ) * p.lat 2 j

/-- Bond vector `r + tau[na1] - tau[na2]`, component `j`. -/
def bondVec (p : PhInput) (na1 na2 : ℕ) (c : ℤ × ℤ × ℤ) (j : ℕ) : ℝ :=
  shift p c j + p.tau na1 j - p.tau na2 j

/-- Bond length `np.sqrt(np.dot(r, r))`. -/
noncomputable def blen (p : PhInput) (na1 na2 : ℕ) (c : ℤ × ℤ × ℤ) : ℝ :=
  Real.sqrt (∑ j ∈ Finset.range 3, bondVec p na1 na2 c j * bondVec p na1 na2 c j)

/-- Python's `min` over a list of numbers (the list is nonempty wherever it
is used; `0` for `[]` is a junk value never hit). -/
def listMin : List ℝ → ℝ
  | [] => 0
  | x :: xs => xs.foldl min x

/-- Python `length = min(lengths)` for one `(m1, m2, m3, na1, na2)` entry. -/
noncomputable def minLen (p : PhInput) (m1 m2 m3 na1 na2 : ℕ) : ℝ :=
  listMin ((copies p m1 m2 m3).map (blen p na1 na2))

open Classical in
/-- Source `selected = copies[np.where(abs(lengths - length) < eps)]`:
the copies whose bond length ties (within `eps`) for the minimum. -/
noncomputable def selectedCopies (p : PhInput) (eps : ℝ) (m1 m2 m3 na1 na2 : ℕ) :
    List (ℤ × ℤ × ℤ) :=
  (copies p m1 m2 m3).filter fun c =>
    decide (|blen p na1 na2 c - minLen p m1 m2 m3 na1 na2| < eps)

/-- Source `C = phid[na1, na2, m1, m2, m3] / (len(selected) * sqrt(amass[na1] * amass[na2]))`. -/
noncomputable def cTensor (p : PhInput) (eps : ℝ) (m1 m2 m3 na1 na2 : ℕ) (i j : ℕ) : ℝ :=
  p.phid na1 na2 m1 m2 m3 i j /
    (((selectedCopies p eps m1 m2 m3 na1 na2).length : ℝ) *
      Real.sqrt (p.amass na1 * p.amass na2))

/-- The springs saved for one `(m1, m2, m3, na1, na2)` entry: one per
selected copy, all carrying the same tensor `C`. -/
noncomputable def springsFor (p : PhInput) (eps : ℝ) (m1 m2 m3 na1 na2 : ℕ) :
    List Spring :=
  (selectedCopies p eps m1 m2 m3 na1 na2).map fun R =>
    ⟨na1, na2, R, cTensor p eps m1 m2 m3 na1 na2⟩

/-! Basic facts about `listMin`. -/

theorem foldl_min_le_init (x : ℝ) (xs : List ℝ) : xs.foldl min x ≤ x := by
  induction xs generalizing x with
  | nil => simp
  | cons y ys ih =>
      calc (y :: ys).foldl min x = ys.foldl min (min x y) := rfl
        _ ≤ min x y := ih _
        _ ≤ x := min_le_left _ _

theorem listMin_le (l : List ℝ) (x : ℝ) (hx : x ∈ l) : listMin l ≤ x := by
  match l, hx with
  | y :: ys, hx =>
      simp only [listMin]
      rcases List.mem_cons.mp hx with h | h
      · exact h ▸ foldl_min_le_init y ys
      · clear hx
        induction ys generalizing y with
        | nil => simp at h
        | cons z zs ih =>
            rcases List.mem_cons.mp h with h' | h'
            · calc (z :: zs).foldl min y = zs.foldl min (min y z) := rfl
                _ ≤ min y z := foldl_min_le_init _ _
                _ ≤ z := min_le_right _ _
                _ = x := h'.symm
            · exact ih (min y z) h'

theorem foldl_min_mem (xs : List ℝ) (x : ℝ) : xs.foldl min x ∈ x :: xs := by
  induction xs generalizing x with
  | nil => simp
  | cons z zs ih =>
      have h := ih (min x z)
      rw [show (z :: zs).foldl min x = zs.foldl min (min x z) from rfl]
      rcases List.mem_cons.mp h with h' | h'
      · rcases min_choice x z with hc | hc
        · exact List.mem_cons.mpr (Or.inl (h'.trans hc))
        · rw [h', hc]; exact List.mem_cons_of_mem _ (List.mem_cons_self _ _)
      · exact List.mem_cons_of_mem _ (List.mem_cons_of_mem _ h')

theorem listMin_mem (l : List ℝ) (hl : l ≠ []) : listMin l ∈ l := by
  match l, hl with
  | y :: ys, _ => exact foldl_min_mem ys y

/-- The 27-element copy list is never empty. -/
theorem copies_length (p : PhInput) (m1 m2 m3 : ℕ) :
    (copies p m1 m2 m3).length = 27 := by
  simp [copies, supercells]

/-- With a positive tolerance at least one copy — one attaining the minimal
bond length — is always selected. -/
theorem selectedCopies_ne_nil (p : PhInput) (eps : ℝ) (m1 m2 m3 na1 na2 : ℕ)
    (heps : 0 < eps) : selectedCopies p eps m1 m2 m3 na1 na2 ≠ [] := by
  have hcop : copies p m1 m2 m3 ≠ [] := by
    intro h
    have := copies_length p m1 m2 m3
    rw [h] at this
    simp at this
  have hmem : minLen p m1 m2 m3 na1 na2 ∈ (copies p m1 m2 m3).map (blen p na1 na2) := by
    apply listMin_mem
    simpa using hcop
  rcases List.mem_map.mp hmem with ⟨c, hc, hlen⟩
  have : c ∈ selectedCopies p eps m1 m2 m3 na1 na2 := by
    apply List.mem_filter.mpr
    refine ⟨hc, ?_⟩
    rw [decide_eq_true_eq, hlen]
    simpa using heps
  intro h
  rw [h] at this
  simp at this

theorem selectedCopies_length_pos (p : PhInput) (eps : ℝ) (m1 m2 m3 na1 na2 : ℕ)
    (heps : 0 < eps) : 0 < (selectedCopies p eps m1 m2 m3 na1 na2).length :=
  List.length_pos.mpr (selectedCopies_ne_nil p eps m1 m2 m3 na1 na2 heps)

/-- Summing the (un-mass-weighted) tensors of the springs of one entry gives
the force constant divided by the mass factor: the multiplicity cancels. -/
theorem springsFor_sum (p : PhInput) (eps : ℝ) (m1 m2 m3 na1 na2 i j : ℕ)
    (heps : 0 < eps) :
    ((springsFor p eps m1 m2 m3 na1 na2).map (fun s => s.C i j)).sum
      = p.phid na1 na2 m1 m2 m3 i j / Real.sqrt (p.amass na1 * p.amass na2) := by
  set k := (selectedCopies p eps m1 m2 m3 na1 na2).length with hk
  have hkpos := selectedCopies_length_pos p eps m1 m2 m3 na1 na2 heps
  have hkne : (k : ℝ) ≠ 0 := Nat.cast_ne_zero.mpr hkpos.ne'
  have hmap : (springsFor p eps m1 m2 m3 na1 na2).map (fun s => s.C i j)
      = List.replicate k (cTensor p eps m1 m2 m3 na1 na2 i j) := by
    rw [springsFor, List.map_map]
    exact List.map_const' _ _
  rw [hmap, List.sum_replicate, nsmul_eq_mul, cTensor]
  rw [← hk, ← div_div, ← mul_div_assoc, mul_comm ((k : ℝ)), div_mul_cancel₀ _ hkne]

theorem listMin_eq (l : List ℝ) (m : ℝ) (hne : l ≠ []) (hmem : m ∈ l)
    (hlb : ∀ x ∈ l, m ≤ x) : listMin l = m :=
  le_antisymm (listMin_le l m hmem) (hlb _ (listMin_mem l hne))

/-- A 1D toy chain: one atom of unit mass at the origin, a 2×1×1 cell grid,
orthonormal lattice vectors; force constants given by an arbitrary `φ`. -/
def chainInput (φ : ℕ → ℕ → ℕ → ℕ → ℕ → ℕ → ℕ → ℝ) : PhInput where
  natoms := 1
  nr1 := 2
  nr2 := 1
  nr3 := 1
  phid := φ
  amass := fun _ => 1
  lat := fun i j => if i = j then 1 else 0
  tau := fun _ _ => 0

theorem chain_blen (φ : ℕ → ℕ → ℕ → ℕ → ℕ → ℕ → ℕ → ℝ) (c : ℤ × ℤ × ℤ) :
    blen (chainInput φ) 0 0 c
      = Real.sqrt ((c.1 : ℝ) ^ 2 + (c.2.1 : ℝ) ^ 2 + (c.2.2 : ℝ) ^ 2) := by
  simp only [blen, bondVec, shift, chainInput, Finset.sum_range_succ,
    Finset.sum_range_zero]
  norm_num
  ring_nf

theorem one_le_chainlen (x y z : ℤ) (h : 1 ≤ x ^ 2 + y ^ 2 + z ^ 2) :
    1 ≤ Real.sqrt ((x : ℝ) ^ 2 + (y : ℝ) ^ 2 + (z : ℝ) ^ 2) := by
  rw [show (1 : ℝ) = Real.sqrt 1 from Real.sqrt_one.symm]
  apply Real.sqrt_le_sqrt
  exact_mod_cast (by exact_mod_cast h : (1 : ℝ) ≤ ((x ^ 2 + y ^ 2 + z ^ 2 : ℤ) : ℝ))

theorem chain_not_sel (x y z : ℤ) (h : 2 ≤ x ^ 2 + y ^ 2 + z ^ 2) :
    ¬ |Real.sqrt ((x : ℝ) ^ 2 + (y : ℝ) ^ 2 + (z : ℝ) ^ 2) - 1| < 1e-7 := by
  have ha : (2 : ℝ) ≤ (x : ℝ) ^ 2 + (y : ℝ) ^ 2 + (z : ℝ) ^ 2 := by
    exact_mod_cast (by exact_mod_cast h : (2 : ℝ) ≤ ((x ^ 2 + y ^ 2 + z ^ 2 : ℤ) : ℝ))
  have h14 : (1.4 : ℝ) ≤ Real.sqrt ((x : ℝ) ^ 2 + (y : ℝ) ^ 2 + (z : ℝ) ^ 2) := by
    rw [show (1.4 : ℝ) = Real.sqrt (1.4 ^ 2) from (Real.sqrt_sq (by norm_num)).symm]
    apply Real.sqrt_le_sqrt
    norm_num
    linarith
  intro hlt
  rw [abs_of_nonneg (by linarith)] at hlt
  norm_num at hlt
  linarith

theorem chain_sel (x y z : ℤ) (h : x ^ 2 + y ^ 2 + z ^ 2 = 1) :
    |Real.sqrt ((x : ℝ) ^ 2 + (y : ℝ) ^ 2 + (z : ℝ) ^ 2) - 1| < 1e-7 := by
  have ha : (x : ℝ) ^ 2 + (y : ℝ) ^ 2 + (z : ℝ) ^ 2 = 1 := by
    exact_mod_cast (by exact_mod_cast h : ((x ^ 2 + y ^ 2 + z ^ 2 : ℤ) : ℝ) = (1 : ℝ))
  rw [ha, Real.sqrt_one]
  norm_num

theorem chain_copies (φ : ℕ → ℕ → ℕ → ℕ → ℕ → ℕ → ℕ → ℝ) :
    copies (chainInput φ) 1 0 0 =
      [(-1, -1, -1), (-1, -1, 0), (-1, -1, 1), (-1, 0, -1), (-1, 0, 0), (-1, 0, 1),
       (-1, 1, -1), (-1, 1, 0), (-1, 1, 1),
       (1, -1, -1), (1, -1, 0), (1, -1, 1), (1, 0, -1), (1, 0, 0), (1, 0, 1),
       (1, 1, -1), (1, 1, 0), (1, 1, 1),
       (3, -1, -1), (3, -1, 0), (3, -1, 1), (3, 0, -1), (3, 0, 0), (3, 0, 1),
       (3, 1, -1), (3, 1, 0), (3, 1, 1)] := by
  rfl

theorem chain_minLen (φ : ℕ → ℕ → ℕ → ℕ → ℕ → ℕ → ℕ → ℝ) :
    minLen (chainInput φ) 1 0 0 0 0 = 1 := by
  apply listMin_eq
  · intro h
    have h27 := copies_length (chainInput φ) 1 0 0
    have := congrArg List.length h
    rw [List.length_map, h27] at this
    simp at this
  · refine List.mem_map.mpr ⟨(1, 0, 0), ?_, ?_⟩
    · rw [chain_copies]; decide
    · rw [chain_blen]; norm_num
  · intro x hx
    rcases List.mem_map.mp hx with ⟨c, hc, rfl⟩
    rw [chain_copies] at hc
    fin_cases hc <;> (rw [chain_blen]; exact one_le_chainlen _ _ _ (by decide))

theorem chain_selected (φ : ℕ → ℕ → ℕ → ℕ → ℕ → ℕ → ℕ → ℝ) :
    selectedCopies (chainInput φ) 1e-7 1 0 0 0 0 = [(-1, 0, 0), (1, 0, 0)] := by
  have hno : ∀ x y z : ℤ, 2 ≤ x ^ 2 + y ^ 2 + z ^ 2 →
      (decide (|blen (chainInput φ) 0 0 (x, y, z)
          - minLen (chainInput φ) 1 0 0 0 0| < (1e-7 : ℝ)) = false) := by
    intro x y z h
    rw [decide_eq_false_iff_not, chain_blen, chain_minLen]
    exact chain_not_sel x y z h
  have hyes : ∀ x y z : ℤ, x ^ 2 + y ^ 2 + z ^ 2 = 1 →
      (decide (|blen (chainInput φ) 0 0 (x, y, z)
          - minLen (chainInput φ) 1 0 0 0 0| < (1e-7 : ℝ)) = true) := by
    intro x y z h
    rw [decide_eq_true_eq, chain_blen, chain_minLen]
    exact chain_sel x y z h
  rw [selectedCopies, chain_copies]
  simp only [List.filter_cons, List.filter_nil,
    hno (-1) (-1) (-1) (by decide), hno (-1) (-1) 0 (by decide),
    hno (-1) (-1) 1 (by decide), hno (-1) 0 (-1) (by decide),
    hyes (-1) 0 0 (by decide), hno (-1) 0 1 (by decide),
    hno (-1) 1 (-1) (by decide), hno (-1) 1 0 (by decide),
    hno (-1) 1 1 (by decide), hno 1 (-1) (-1) (by decide),
    hno 1 (-1) 0 (by decide), hno 1 (-1) 1 (by decide),
    hno 1 0 (-1) (by decide), hyes 1 0 0 (by decide),
    hno 1 0 1 (by decide), hno 1 1 (-1) (by decide),
    hno 1 1 0 (by decide), hno 1 1 1 (by decide),
    hno 3 (-1) (-1) (by decide), hno 3 (-1) 0 (by decide),
    hno 3 (-1) 1 (by decide), hno 3 0 (-1) (by decide),
    hno 3 0 0 (by decide), hno 3 0 1 (by decide),
    hno 3 1 (-1) (by decide), hno 3 1 0 (by decide),
    hno 3 1 1 (by decide)]
  simp

theorem chain_cTensor (φ : ℕ → ℕ → ℕ → ℕ → ℕ → ℕ → ℕ → ℝ) (i j : ℕ) :
    cTensor (chainInput φ) 1e-7 1 0 0 0 0 i j = φ 0 0 1 0 0 i j / 2 := by
  rw [cTensor, chain_selected]
  show φ 0 0 1 0 0 i j / (((2 : ℕ) : ℝ) * Real.sqrt ((1 : ℝ) * 1)) = _
  norm_num

/-- Claim C1: for every force-constant entry `(na1, na2, m1, m2, m3)` the
spring-list builder emits exactly one spring per copy (among the 27
neighboring-supercell translations) whose bond length is within `eps` of the
minimum, each carrying the tensor `phid / (multiplicity * sqrt(mA * mB))`;
and on a 1D chain whose bond lies exactly on the supercell boundary, exactly
two springs are emitted, each carrying half the original coupling. -/
theorem spring_selection_and_boundary_split :
    (∀ (p : PhInput) (eps : ℝ) (m1 m2 m3 na1 na2 : ℕ) (s : Spring),
        s ∈ springsFor p eps m1 m2 m3 na1 na2 ↔
          ∃ c ∈ copies p m1 m2 m3,
            |blen p na1 na2 c - minLen p m1 m2 m3 na1 na2| < eps ∧
            s = ⟨na1, na2, c, fun i j => p.phid na1 na2 m1 m2 m3 i j /
              (((selectedCopies p eps m1 m2 m3 na1 na2).length : ℝ) *
                Real.sqrt (p.amass na1 * p.amass na2))⟩)
    ∧ (∀ φ, (springsFor (chainInput φ) 1e-7 1 0 0 0 0).length = 2
        ∧ ∀ s ∈ springsFor (chainInput φ) 1e-7 1 0 0 0 0, ∀ i j : ℕ,
            s.C i j = φ 0 0 1 0 0 i j / 2) := by
  constructor
  · intro p eps m1 m2 m3 na1 na2 s
    constructor
    · intro hs
      rcases List.mem_map.mp hs with ⟨c, hc, rfl⟩
      rcases List.mem_filter.mp hc with ⟨hcc, hdec⟩
      exact ⟨c, hcc, by rwa [decide_eq_true_eq] at hdec, rfl⟩
    · rintro ⟨c, hc, hsel, rfl⟩
      exact List.mem_map.mpr
        ⟨c, List.mem_filter.mpr ⟨hc, by rwa [decide_eq_true_eq]⟩, rfl⟩
  · intro φ
    refine ⟨?_, ?_⟩
    · rw [springsFor, List.length_map, chain_selected]
      rfl
    · intro s hs i j
      rw [springsFor, chain_selected] at hs
      rcases List.mem_map.mp hs with ⟨c, _, rfl⟩
      exact chain_cTensor φ i j

/-- Claim C2: multiplying each emitted spring's tensor by `sqrt(mA * mB)` and
summing over all images emitted for one `(na1, na2, m1, m2, m3)` entry
reproduces the original force-constant tensor entry. -/
theorem spring_sum_roundtrip (p : PhInput) (eps : ℝ) (m1 m2 m3 na1 na2 i j : ℕ)
    (heps : 0 < eps) (h1 : 0 < p.amass na1) (h2 : 0 < p.amass na2) :
    ((springsFor p eps m1 m2 m3 na1 na2).map
        (fun s => Real.sqrt (p.amass na1 * p.amass na2) * s.C i j)).sum
      = p.phid na1 na2 m1 m2 m3 i j := by
  have hs : Real.sqrt (p.amass na1 * p.amass na2) ≠ 0 :=
    (Real.sqrt_pos.mpr (mul_pos h1 h2)).ne'
  have hfold : ((springsFor p eps m1 m2 m3 na1 na2).map
      (fun s => Real.sqrt (p.amass na1 * p.amass na2) * s.C i j)).sum
        = Real.sqrt (p.amass na1 * p.amass na2) *
          ((springsFor p eps m1 m2 m3 na1 na2).map (fun s => s.C i j)).sum := by
    induction springsFor p eps m1 m2 m3 na1 na2 with
    | nil => simp
    | cons a l ih => simp [ih]; ring
  rw [hfold, springsFor_sum p eps m1 m2 m3 na1 na2 i j heps, mul_comm,
    div_mul_cancel₀ _ hs]

/-- A concrete constant force-constant array used by witnesses. -/
def constPhi : ℕ → ℕ → ℕ → ℕ → ℕ → ℕ → ℕ → ℝ := fun _ _ _ _ _ _ _ => 5

theorem spring_sum_roundtrip_witness :
    (0 : ℝ) < 1e-7 ∧ 0 < (chainInput constPhi).amass 0 ∧
    ((springsFor (chainInput constPhi) 1e-7 1 0 0 0 0).map
        (fun s => Real.sqrt ((chainInput constPhi).amass 0 *
          (chainInput constPhi).amass 0) * s.C 0 0)).sum
      = (chainInput constPhi).phid 0 0 1 0 0 0 0 :=
  ⟨by norm_num, by norm_num [chainInput],
    spring_sum_roundtrip (chainInput constPhi) 1e-7 1 0 0 0 0 0 0
      (by norm_num) (by norm_num [chainInput]) (by norm_num [chainInput])⟩

theorem spring_selection_and_boundary_split_witness :
    (springsFor (chainInput constPhi) 1e-7 1 0 0 0 0).length = 2 :=
  (spring_selection_and_boundary_split.2 constPhi).1

/-! ## Frequency solver -/

/-- Source `np.sign(w2) * np.sqrt(np.absolute(w2))` applied to one eigenvalue. -/
noncomputable def signedFreq (w2 : ℝ) : ℝ := Real.sign w2 * Real.sqrt |w2|

/-- Function `frequencies`: eigenvalues-only mode. The dense Hermitian
eigendecomposition (`scipy.linalg.eigvalsh`) is an external primitive, so the
adapter is modelled on the eigenvalue array it returns. -/
noncomputable def frequencies (w2 : List ℝ) : List ℝ := w2.map signedFreq

/-- Function `frequencies_and_displacements`: eigenvalues-plus-eigenvectors mode
(`scipy.linalg.eigh`); the eigenvector matrix is passed through unmodified. -/
noncomputable def frequencies_and_displacements (w2 : List ℝ) (e : ℕ → ℕ → ℂ) :
    List ℝ × (ℕ → ℕ → ℂ) := (w2.map signedFreq, e)

/-- Claim C4: both solver modes map every eigenvalue `w2` to the signed
frequency `sign(w2) * sqrt(|w2|)`; in particular `-4 ↦ -2`, `9 ↦ 3`,
`0 ↦ 0`. -/
theorem frequencies_signed :
    (∀ (w2 : List ℝ) (k : ℕ),
        (frequencies w2)[k]? = (w2[k]?).map (fun x => Real.sign x * Real.sqrt |x|))
    ∧ (∀ (w2 : List ℝ) (e : ℕ → ℕ → ℂ),
        (frequencies_and_displacements w2 e).1 = frequencies w2
        ∧ (frequencies_and_displacements w2 e).2 = e)
    ∧ signedFreq (-4) = -2 ∧ signedFreq 9 = 3 ∧ signedFreq 0 = 0 := by
  refine ⟨?_, fun w2 e => ⟨rfl, rfl⟩, ?_, ?_, ?_⟩
  · intro w2 k
    simp only [frequencies, List.getElem?_map]
    rfl
  · rw [signedFreq, Real.sign_of_neg (by norm_num), show |(-4 : ℝ)| = 4 by norm_num,
      show (4 : ℝ) = 2 ^ 2 by norm_num, Real.sqrt_sq (by norm_num)]
    norm_num
  · rw [signedFreq, Real.sign_of_pos (by norm_num), show |(9 : ℝ)| = 9 by norm_num,
      show (9 : ℝ) = 3 ^ 2 by norm_num, Real.sqrt_sq (by norm_num)]
    norm_num
  · rw [signedFreq, Real.sign_zero, zero_mul]

theorem frequencies_signed_witness :
    signedFreq (-4) = -2 ∧ signedFreq 9 = 3 ∧ signedFreq 0 = 0 :=
  ⟨frequencies_signed.2.2.1, frequencies_signed.2.2.2.1,
    frequencies_signed.2.2.2.2⟩

/-! ## Dynamical-matrix evaluator -/

/-- One spring's contribution to entry `(x, y)` of the dynamical matrix at
wavevector `q`: the source accumulates `C * exp(1j * R.dot(q))` into
`D[na1::nat, na2::nat]`, so entry `x = na1 + nat*i`, `y = na2 + nat*j`
(atom index fast-varying) receives `C[i, j] * exp(i R·q)`. -/
noncomputable def springTerm (nt : ℕ) (q1 q2 q3 : ℝ) (x y : ℕ) (s : Spring) : ℂ :=
  if s.na1 = x % nt ∧ s.na2 = y % nt then
    ((s.C (x / nt) (y / nt) : ℝ) : ℂ) *
      Complex.exp (Complex.I *
        ((s.R.1 : ℝ) * q1 + (s.R.2.1 : ℝ) * q2 + (s.R.2.2 : ℝ) * q3))
  else 0

/-- Entry `(x, y)` of `calculate_dynamical_matrix(q1, q2, q3)` built from a
spring list `L` for `nt` atoms. -/
noncomputable def dynMat (L : List Spring) (nt : ℕ) (q1 q2 q3 : ℝ) (x y : ℕ) : ℂ :=
  (L.map (springTerm nt q1 q2 q3 x y)).sum

/-- The assumed spring symmetry `(na1, na2, R, C) ↔ (na2, na1, -R, Cᵀ)`. -/
def swapSpring (s : Spring) : Spring :=
  ⟨s.na2, s.na1, (-s.R.1, -s.R.2.1, -s.R.2.2), fun i j => s.C j i⟩

theorem springTerm_conj (nt : ℕ) (q1 q2 q3 : ℝ) (x y : ℕ) (s : Spring) :
    starRingEnd ℂ (springTerm nt q1 q2 q3 y x s)
      = springTerm nt q1 q2 q3 x y (swapSpring s) := by
  unfold springTerm swapSpring
  by_cases h : s.na1 = y % nt ∧ s.na2 = x % nt
  · rw [if_pos h, if_pos (show s.na2 = x % nt ∧ s.na1 = y % nt from ⟨h.2, h.1⟩)]
    rw [map_mul, Complex.conj_ofReal, ← Complex.exp_conj]
    congr 2
    simp only [map_mul, map_add, Complex.conj_I, Complex.conj_ofReal]
    push_cast
    ring
  · rw [if_neg h, if_neg (fun hh => h ⟨hh.2, hh.1⟩), map_zero]

/-- Claim C3: whenever the spring list is (as a multiset) invariant under the
assumed symmetry `(na1, na2, R, C) ↔ (na2, na1, -R, Cᵀ)`, the dynamical
matrix equals its own conjugate transpose at every wavevector. -/
theorem dynMat_hermitian (L : List Spring) (nt : ℕ) (q1 q2 q3 : ℝ) (x y : ℕ)
    (hsym : (L.map swapSpring).Perm L) :
    dynMat L nt q1 q2 q3 x y = starRingEnd ℂ (dynMat L nt q1 q2 q3 y x) := by
  have hmap : L.map (starRingEnd ℂ ∘ springTerm nt q1 q2 q3 y x)
      = (L.map swapSpring).map (springTerm nt q1 q2 q3 x y) := by
    rw [List.map_map]
    exact List.map_congr_left fun s _ => springTerm_conj nt q1 q2 q3 x y s
  have h2 : starRingEnd ℂ (dynMat L nt q1 q2 q3 y x) = dynMat L nt q1 q2 q3 x y := by
    rw [dynMat, map_list_sum, List.map_map, hmap,
      (hsym.map (springTerm nt q1 q2 q3 x y)).sum_eq]
    rfl
  exact h2.symm

/-- A concrete self-symmetric spring used by the C3 witness. -/
def symSpring : Spring := ⟨0, 0, (0, 0, 0), fun i j => if i = j then 1 else 0⟩

theorem swap_symSpring : swapSpring symSpring = symSpring := by
  unfold swapSpring symSpring
  congr 1
  funext i j
  simp [eq_comm]

theorem dynMat_hermitian_witness :
    ([symSpring].map swapSpring).Perm [symSpring] ∧
    dynMat [symSpring] 1 1 2 3 0 2
      = starRingEnd ℂ (dynMat [symSpring] 1 1 2 3 2 0) := by
  have hperm : ([symSpring].map swapSpring).Perm [symSpring] := by
    rw [List.map_singleton, swap_symSpring]
  exact ⟨hperm, dynMat_hermitian [symSpring] 1 1 2 3 0 2 hperm⟩

/-! ## Work partitioning -/

/-- Round-robin ownership in the spring-list builder: the running counter `N`
is incremented before the test `N % comm.size != comm.rank`, so the 0-based
entry `i` (counter value `i + 1`) is processed by rank `(i + 1) % W`. -/
def rrOwner (W i : ℕ) : ℕ := (i + 1) % W

/-- Balanced contiguous split of the dispersion sampler:
`sizes[:] = N // comm.size; sizes[:N % comm.size] += 1`. -/
def balSize (N W r : ℕ) : ℕ := N / W + if r < N % W then 1 else 0

/-- Start offset of worker `r` in the contiguous split (`Scatterv` order). -/
def balOffset (N W r : ℕ) : ℕ := ∑ t ∈ Finset.range r, balSize N W t

theorem balOffset_succ (N W r : ℕ) :
    balOffset N W (r + 1) = balOffset N W r + balSize N W r :=
  Finset.sum_range_succ _ _

theorem balOffset_closed (N W r : ℕ) :
    balOffset N W r = r * (N / W) + min r (N % W) := by
  induction r with
  | zero => simp [balOffset]
  | succ r ih =>
      rw [balOffset_succ, ih, balSize]
      by_cases h : r < N % W
      · rw [if_pos h]
        have : min r (N % W) = r := min_eq_left (le_of_lt h)
        have h2 : min (r + 1) (N % W) = r + 1 := min_eq_left h
        rw [this, h2]
        ring
      · rw [if_neg h]
        push_neg at h
        rw [min_eq_right h, min_eq_right (le_trans h (Nat.le_succ r))]
        ring

theorem balOffset_mono (N W : ℕ) {r s : ℕ} (h : r ≤ s) :
    balOffset N W r ≤ balOffset N W s := by
  unfold balOffset
  exact Finset.sum_le_sum_of_subset (Finset.range_subset.mpr h)

theorem balSize_sum (N W : ℕ) (hW : 0 < W) :
    ∑ r ∈ Finset.range W, balSize N W r = N := by
  have h := balOffset_closed N W W
  rw [balOffset] at h
  rw [h, min_eq_right (le_of_lt (Nat.mod_lt _ hW))]
  exact Nat.div_add_mod N W

theorem bal_exists (N W : ℕ) :
    ∀ K, ∀ n < balOffset N W K, ∃ r < K,
      balOffset N W r ≤ n ∧ n < balOffset N W r + balSize N W r := by
  intro K
  induction K with
  | zero => intro n hn; simp [balOffset] at hn
  | succ K ih =>
      intro n hn
      by_cases h : n < balOffset N W K
      · rcases ih n h with ⟨r, hr, h1, h2⟩
        exact ⟨r, Nat.lt_succ_of_lt hr, h1, h2⟩
      · push_neg at h
        rw [balOffset_succ] at hn
        exact ⟨K, Nat.lt_succ_self K, h, hn⟩

/-- Claim C6: both partition schemes tile the index range exactly: round-robin
assigns every entry to exactly one rank below `W`; the balanced split's sizes
are `N / W` plus one for the first `N mod W` workers, they sum to `N`, and
every index below `N` lies in exactly one worker's contiguous window. -/
theorem partition_exactness (W N : ℕ) (hW : 0 < W) :
    (∀ i : ℕ, ∃! r : ℕ, r < W ∧ rrOwner W i = r)
    ∧ (∀ r : ℕ, balSize N W r = N / W + if r < N % W then 1 else 0)
    ∧ (∑ r ∈ Finset.range W, balSize N W r = N)
    ∧ (∀ n < N, ∃! r : ℕ, r < W ∧
        balOffset N W r ≤ n ∧ n < balOffset N W r + balSize N W r) := by
  refine ⟨?_, fun r => rfl, balSize_sum N W hW, ?_⟩
  · intro i
    refine ⟨(i + 1) % W, ⟨Nat.mod_lt _ hW, rfl⟩, ?_⟩
    rintro r ⟨_, rfl⟩
    rfl
  · intro n hn
    have hcover : n < balOffset N W W := by
      have h := balOffset_closed N W W
      rw [h, min_eq_right (le_of_lt (Nat.mod_lt _ hW)), Nat.div_add_mod N W]
      exact hn
    rcases bal_exists N W W n hcover with ⟨r, hr, h1, h2⟩
    refine ⟨r, ⟨hr, h1, h2⟩, ?_⟩
    rintro s ⟨hs, hs1, hs2⟩
    by_contra hne
    rcases Nat.lt_or_ge s r with hlt | hge
    · have : balOffset N W (s + 1) ≤ balOffset N W r := balOffset_mono N W hlt
      rw [balOffset_succ] at this
      exact absurd (lt_of_lt_of_le hs2 (le_trans this h1)) (not_lt.mpr le_rfl)
    · have hlt : r < s := lt_of_le_of_ne hge (fun h => hne h.symm)
      have : balOffset N W (r + 1) ≤ balOffset N W s := balOffset_mono N W hlt
      rw [balOffset_succ] at this
      exact absurd (lt_of_lt_of_le h2 (le_trans this hs1)) (not_lt.mpr le_rfl)

theorem partition_exactness_witness :
    0 < 3 ∧
    ((∀ i : ℕ, ∃! r : ℕ, r < 3 ∧ rrOwner 3 i = r)
    ∧ (∀ r : ℕ, balSize 7 3 r = 7 / 3 + if r < 7 % 3 then 1 else 0)
    ∧ (∑ r ∈ Finset.range 3, balSize 7 3 r = 7)
    ∧ (∀ n < 7, ∃! r : ℕ, r < 3 ∧
        balOffset 7 3 r ≤ n ∧ n < balOffset 7 3 r + balSize 7 3 r)) :=
  ⟨by norm_num, partition_exactness 3 7 (by norm_num)⟩

/-! ## Geometry decoding boundary (`read_flfrc`) -/

/-- Python control flow of the `ibrav` dispatch in `read_flfrc`: the function
either returns lattice vectors (`ok`), or prints 'Bravais lattice unknown'
and falls through a plain `return` with no value (`returnedNone`), or raises
an exception (`raised` — this constructor only makes the spec's
"fatal error is raised" claim statable; the source never produces it). -/
inductive GeomOutcome where
  | ok (lat : ℕ → ℕ → ℝ)
  | returnedNone
  | raised

/-- The `ibrav` dispatch of `read_flfrc`: `ibrav == 0` takes the lattice
table read from the file (`atIn`), `ibrav == 4` builds hexagonal lattice
vectors from `celldm`, and any other code prints a message and returns
`None`. -/
noncomputable def readGeomLattice (ibrav : ℤ) (celldm0 celldm2 : ℝ)
    (atIn : ℕ → ℕ → ℝ) : GeomOutcome :=
  if ibrav = 0 then .ok atIn
  else if ibrav = 4 then
    .ok fun i j =>
      if i = 0 then (if j = 0 then celldm0 else 0)
      else if i = 1 then
        (if j = 0 then -celldm0 / 2
         else if j = 1 then Real.sqrt 3 * celldm0 / 2 else 0)
      else (if j = 2 then celldm0 * celldm2 else 0)
  else .returnedNone

/-- Claim C10, counterexample: for the unrecognized code `ibrav = 2` the
decoder returns `None` after printing — no error is raised, contradicting
the claim that a fatal input-validation error aborts the run. -/
theorem unknown_ibrav_not_raised :
    readGeomLattice 2 1 1 (fun _ _ => 0) = GeomOutcome.returnedNone ∧
    readGeomLattice 2 1 1 (fun _ _ => 0) ≠ GeomOutcome.raised := by
  refine ⟨rfl, fun h => ?_⟩
  change GeomOutcome.returnedNone = GeomOutcome.raised at h
  exact GeomOutcome.noConfusion h

/-- Claim C10, amended: an unrecognized lattice-convention code makes
`read_flfrc` print a diagnostic and return an absent result (`None`) before
any distributed work; no exception is raised. -/
theorem unknown_ibrav_returns_none (ibrav : ℤ) (c0 c2 : ℝ) (atIn : ℕ → ℕ → ℝ)
    (h0 : ibrav ≠ 0) (h4 : ibrav ≠ 4) :
    readGeomLattice ibrav c0 c2 atIn = GeomOutcome.returnedNone := by
  rw [readGeomLattice, if_neg h0, if_neg h4]

theorem unknown_ibrav_returns_none_witness :
    (2 : ℤ) ≠ 0 ∧ (2 : ℤ) ≠ 4 ∧
    readGeomLattice 2 1 1 (fun _ _ => 0) = GeomOutcome.returnedNone :=
  ⟨by decide, by decide,
    unknown_ibrav_returns_none 2 1 1 (fun _ _ => 0) (by decide) (by decide)⟩

/-! ## Symmetry-consensus pick (`fix` branch of `dispersion`)

`bravais.images` (the hexagonal orbit of a mesh point) lives outside this
module; following the spec, the orbit only enters through the list of
permutations tallied at a point's orbit images, over which the source
computes `min(counts, key=lambda x: (-counts[x], x))`. -/

/-- Python tuple comparison `x < y` (lexicographic), as used by the
tie-break component of the key `(-counts[x], x)`. -/
def tupleLt : List ℕ → List ℕ → Bool
  | [], [] => false
  | [], _ :: _ => true
  | _ :: _, [] => false
  | a :: as, b :: bs => if a < b then true else if b < a then false else tupleLt as bs

/-- Strict comparison by the key `(-counts[x], x)`: more frequent first,
ties broken by tuple order. -/
def keyLt (l : List (List ℕ)) (x y : List ℕ) : Bool :=
  if l.count x ≠ l.count y then decide (l.count y < l.count x) else tupleLt x y

/-- Source `min(counts, key=lambda x: (-counts[x], x))` over the tallied orbit-image
permutations `l`: `counts` has the distinct permutations of `l` as keys, and
since the key is injective on them the dict order is irrelevant; `l.dedup`
serves as the key set. -/
def consensusPick (l : List (List ℕ)) : List ℕ :=
  match l.dedup with
  | [] => []
  | x :: xs => xs.foldl (fun best y => if keyLt l y best then y else best) x

theorem tupleLt_irrefl (a : List ℕ) : tupleLt a a = false := by
  induction a with
  | nil => rfl
  | cons x xs ih => simp [tupleLt, ih]

theorem tupleLt_trans {a b c : List ℕ} (hab : tupleLt a b = true)
    (hbc : tupleLt b c = true) : tupleLt a c = true := by
  induction a generalizing b c with
  | nil =>
      match c with
      | [] =>
          match b with
          | [] => exact hbc
          | y :: ys => simp [tupleLt] at hbc
      | z :: zs => rfl
  | cons x xs ih =>
      match b with
      | [] => simp [tupleLt] at hab
      | y :: ys =>
          match c with
          | [] => simp [tupleLt] at hbc
          | z :: zs =>
              simp only [tupleLt] at hab hbc ⊢
              by_cases hxy : x < y
              · by_cases hyz : y < z
                · rw [if_pos (lt_trans hxy hyz)]
                · rw [if_neg hyz] at hbc
                  by_cases hzy : z < y
                  · simp [hzy] at hbc
                  · have : y = z := le_antisymm (not_lt.mp hzy) (not_lt.mp hyz)
                    rw [if_pos (this ▸ hxy)]
              · rw [if_neg hxy] at hab
                by_cases hyx : y < x
                · simp [hyx] at hab
                · rw [if_neg hyx] at hab
                  have hxy' : x = y := le_antisymm (not_lt.mp hyx) (not_lt.mp hxy)
                  subst hxy'
                  by_cases hxz : x < z
                  · rw [if_pos hxz]
                  · rw [if_neg hxz] at hbc ⊢
                    by_cases hzx : z < x
                    · simp [hzx] at hbc
                    · rw [if_neg hzx] at hbc ⊢
                      exact ih hab hbc

theorem tupleLt_conn {a b : List ℕ} (hab : tupleLt a b = false)
    (hba : tupleLt b a = false) : a = b := by
  induction a generalizing b with
  | nil =>
      match b with
      | [] => rfl
      | y :: ys => simp [tupleLt] at hab
  | cons x xs ih =>
      match b with
      | [] => simp [tupleLt] at hba
      | y :: ys =>
          simp only [tupleLt] at hab hba
          by_cases hxy : x < y
          · simp [hxy] at hab
          · by_cases hyx : y < x
            · simp [hyx] at hba
            · have hxy' : x = y := le_antisymm (not_lt.mp hyx) (not_lt.mp hxy)
              subst hxy'
              rw [if_neg hxy, if_neg hxy] at hab hba
              rw [ih hab hba]

theorem keyLt_irrefl (l : List (List ℕ)) (a : List ℕ) : keyLt l a a = false := by
  simp [keyLt, tupleLt_irrefl]

theorem keyLt_negtrans {l : List (List ℕ)} {a b c : List ℕ}
    (hab : keyLt l a b = false) (hbc : keyLt l b c = false) :
    keyLt l a c = false := by
  unfold keyLt at hab hbc ⊢
  by_cases h1 : l.count a = l.count b
  · by_cases h2 : l.count b = l.count c
    · rw [if_neg (by omega)] at hab hbc ⊢
      by_cases h3 : tupleLt a c = true
      · by_cases h4 : tupleLt c b = true
        · have := tupleLt_trans h3 h4
          rw [this] at hab
          simp at hab
        · have hcb : tupleLt c b = false := Bool.eq_false_iff.mpr h4
          have : c = b := tupleLt_conn hcb hbc
          subst this
          rw [h3] at hab
          simp at hab
      · exact Bool.eq_false_iff.mpr h3
    · rw [if_pos (by omega)] at hbc
      simp only [decide_eq_false_iff_not, not_lt] at hbc
      have hbc' : l.count b < l.count c := by omega
      rw [if_pos (by omega)]
      simp only [decide_eq_false_iff_not, not_lt]
      omega
  · rw [if_pos h1] at hab
    simp only [decide_eq_false_iff_not, not_lt] at hab
    have hab' : l.count a < l.count b := by omega
    by_cases h2 : l.count b = l.count c
    · rw [if_pos (by omega)]
      simp only [decide_eq_false_iff_not, not_lt]
      omega
    · rw [if_pos h2] at hbc
      simp only [decide_eq_false_iff_not, not_lt] at hbc
      rw [if_pos (by omega)]
      simp only [decide_eq_false_iff_not, not_lt]
      omega

theorem keyLt_asymm {l : List (List ℕ)} {a b : List ℕ}
    (h : keyLt l a b = true) : keyLt l b a = false := by
  unfold keyLt at h ⊢
  by_cases h1 : l.count a = l.count b
  · rw [if_neg (by omega)] at h ⊢
    cases hba : tupleLt b a
    · rfl
    · have := tupleLt_trans h hba
      rw [tupleLt_irrefl] at this
      exact absurd this (by simp)
  · rw [if_pos h1] at h
    simp only [decide_eq_true_eq] at h
    rw [if_pos (by omega)]
    simp only [decide_eq_false_iff_not, not_lt]
    omega

theorem foldl_pick_mem (l : List (List ℕ)) (xs : List (List ℕ)) (x : List ℕ) :
    xs.foldl (fun best y => if keyLt l y best then y else best) x ∈ x :: xs := by
  induction xs generalizing x with
  | nil => simp
  | cons z zs ih =>
      rw [List.foldl_cons]
      rcases List.mem_cons.mp (ih (if keyLt l z x then z else x)) with h' | h'
      · rw [h']
        by_cases hc : keyLt l z x = true
        · rw [if_pos hc]
          exact List.mem_cons_of_mem _ (List.mem_cons_self _ _)
        · rw [if_neg hc]
          exact List.mem_cons_self _ _
      · exact List.mem_cons_of_mem _ (List.mem_cons_of_mem _ h')

theorem foldl_pick_min (l : List (List ℕ)) (xs : List (List ℕ)) (x : List ℕ) :
    ∀ y ∈ x :: xs,
      keyLt l y (xs.foldl (fun best y => if keyLt l y best then y else best) x)
        = false := by
  induction xs generalizing x with
  | nil =>
      intro y hy
      rw [List.mem_singleton] at hy
      subst hy
      exact keyLt_irrefl l y
  | cons z zs ih =>
      intro y hy
      rw [List.foldl_cons]
      rcases List.mem_cons.mp hy with rfl | hy'
      · by_cases hc : keyLt l z y = true
        · rw [if_pos hc]
          exact keyLt_negtrans (keyLt_asymm hc) (ih z z (List.mem_cons_self z zs))
        · rw [if_neg hc]
          exact ih y y (List.mem_cons_self y zs)
      · rcases List.mem_cons.mp hy' with rfl | hy''
        · by_cases hc : keyLt l y x = true
          · rw [if_pos hc]
            exact ih y y (List.mem_cons_self y zs)
          · rw [if_neg hc]
            exact keyLt_negtrans (Bool.eq_false_iff.mpr hc)
              (ih x x (List.mem_cons_self x zs))
        · by_cases hc : keyLt l z x = true
          · rw [if_pos hc]
            exact ih z y (List.mem_cons_of_mem _ hy'')
          · rw [if_neg hc]
            exact ih x y (List.mem_cons_of_mem _ hy'')

theorem count_two_le_length (l : List (List ℕ)) {a b : List ℕ} (hab : a ≠ b) :
    l.count a + l.count b ≤ l.length := by
  induction l with
  | nil => simp
  | cons x xs ih =>
      simp only [List.count_cons, List.length_cons, beq_iff_eq]
      by_cases hxa : x = a <;> by_cases hxb : x = b
      · exact absurd (hxa.symm.trans hxb) hab
      · rw [if_pos hxa, if_neg hxb]; omega
      · rw [if_neg hxa, if_pos hxb]; omega
      · rw [if_neg hxa, if_neg hxb]; omega

theorem consensusPick_spec (l : List (List ℕ)) (hne : l ≠ []) :
    consensusPick l ∈ l ∧ ∀ q ∈ l, keyLt l q (consensusPick l) = false := by
  have hd : l.dedup ≠ [] := by
    intro h
    exact hne ((List.dedup_eq_nil l).mp h)
  rcases hdd : l.dedup with _ | ⟨x, xs⟩
  · exact absurd hdd hd
  · have hpick : consensusPick l
        = xs.foldl (fun best y => if keyLt l y best then y else best) x := by
      rw [consensusPick, hdd]
    constructor
    · rw [hpick]
      have hm := foldl_pick_mem l xs x
      rw [← hdd] at hm
      exact List.mem_dedup.mp hm
    · intro q hq
      rw [hpick]
      have hq' : q ∈ x :: xs := by
        rw [← hdd]
        exact List.mem_dedup.mpr hq
      exact foldl_pick_min l xs x q hq'

/-- Claim C8: the consensus pick over the permutations tallied at a point's
orbit images (modelled from the spec; `bravais.images` is external) is the
most frequent permutation, with ties broken by the fixed lexicographic tuple
order; an assignment shared by every image is kept unchanged, and any strict
majority — e.g. five of six images in a hexagonal orbit — wins. -/
theorem consensus_pick_majority (l : List (List ℕ)) (p : List ℕ) (hne : l ≠ []) :
    (consensusPick l ∈ l
      ∧ (∀ q ∈ l, l.count q ≤ l.count (consensusPick l))
      ∧ (∀ q ∈ l, l.count q = l.count (consensusPick l) →
          tupleLt q (consensusPick l) = false))
    ∧ ((∀ q ∈ l, q = p) → consensusPick l = p)
    ∧ (2 * l.count p > l.length → consensusPick l = p) := by
  obtain ⟨hmem, hmin⟩ := consensusPick_spec l hne
  have hcount : ∀ q ∈ l, l.count q ≤ l.count (consensusPick l) := by
    intro q hq
    have h := hmin q hq
    unfold keyLt at h
    by_cases h1 : l.count q = l.count (consensusPick l)
    · omega
    · rw [if_pos h1] at h
      simp only [decide_eq_false_iff_not, not_lt] at h
      omega
  have htie : ∀ q ∈ l, l.count q = l.count (consensusPick l) →
      tupleLt q (consensusPick l) = false := by
    intro q hq he
    have h := hmin q hq
    unfold keyLt at h
    rw [if_neg (by omega)] at h
    exact h
  have hmaj : 2 * l.count p > l.length → consensusPick l = p := by
    intro hp
    have hple : l.count p ≤ l.length := List.count_le_length p l
    have hppos : 0 < l.count p := by omega
    have hpmem : p ∈ l := by
      by_contra hno
      rw [List.count_eq_zero_of_not_mem hno] at hppos
      exact absurd hppos (by norm_num)
    by_contra hneq
    have h1 : l.count p ≤ l.count (consensusPick l) := hcount p hpmem
    have h2 : l.count (consensusPick l) + l.count p ≤ l.length :=
      count_two_le_length l hneq
    omega
  refine ⟨⟨hmem, hcount, htie⟩, ?_, hmaj⟩
  intro hall
  apply hmaj
  have hc : l.count p = l.length :=
    List.count_eq_length.mpr (fun b hb => (hall b hb).symm)
  have hlen : 0 < l.length := List.length_pos.mpr hne
  omega

theorem consensus_pick_majority_witness :
    ([[0, 1], [0, 1], [0, 1], [0, 1], [0, 1], [1, 0]] : List (List ℕ)) ≠ [] ∧
    2 * ([[0, 1], [0, 1], [0, 1], [0, 1], [0, 1], [1, 0]] : List (List ℕ)).count [0, 1]
        > ([[0, 1], [0, 1], [0, 1], [0, 1], [0, 1], [1, 0]] : List (List ℕ)).length ∧
    consensusPick [[0, 1], [0, 1], [0, 1], [0, 1], [0, 1], [1, 0]] = [0, 1] :=
  ⟨by decide, by decide,
    (consensus_pick_majority [[0, 1], [0, 1], [0, 1], [0, 1], [0, 1], [1, 0]]
      [0, 1] (by decide)).2.2 (by decide)⟩

/-! ## Band-order resolver (`band_order`) -/

open Classical in
/-- Python's `max(range(bands), key=key)`: the first index attaining the
maximal key — a later candidate replaces the best only on strict
improvement. -/
noncomputable def pyMax (key : ℕ → ℝ) : List ℕ → ℕ
  | [] => 0
  | x :: xs => xs.foldl (fun best y => if key best < key y then y else best) x

/-- Overlap `np.absolute(np.dot(e[n0, :, prev[nu]], e[n, :, mu].conj()))`: overlap
magnitude between the reference eigenvector for slot `nu` and band `mu` at
point `n`. -/
noncomputable def overlapKey (bands : ℕ) (e : ℕ → ℕ → ℕ → ℂ) (n0 n : ℕ)
    (prev : List ℕ) (nu mu : ℕ) : ℝ :=
  Complex.abs (∑ a ∈ Finset.range bands,
    e n0 a (prev.getD nu 0) * (starRingEnd ℂ) (e n a mu))

open Classical in
/-- One iteration of the `band_order` loop: build row `n` from the current
reference row `order[n0]`, then make `n` the new reference when all
consecutive frequency differences at `n` exceed `1e-10` (no degeneracy). -/
noncomputable def boStep (bands : ℕ) (w : ℕ → ℕ → ℝ) (e : ℕ → ℕ → ℕ → ℂ)
    (st : ℕ × List (List ℕ)) (n : ℕ) : ℕ × List (List ℕ) :=
  let row := (List.range bands).map fun nu =>
    pyMax (overlapKey bands e st.1 n (st.2.getD st.1 []) nu) (List.range bands)
  let n0 := if ∀ i, i + 1 < bands → 1e-10 < |w n (i + 1) - w n i| then n else st.1
  (n0, st.2 ++ [row])

/-- Function `band_order(w, e)` for `Npts` path points and `bands` bands:
`order[0] = range(bands)`, then rows `1 .. Npts-1` via `boStep`. -/
noncomputable def band_order (Npts bands : ℕ) (w : ℕ → ℕ → ℝ)
    (e : ℕ → ℕ → ℕ → ℂ) : List (List ℕ) :=
  (((List.range (Npts - 1)).map (· + 1)).foldl (boStep bands w e)
    (0, [List.range bands])).2

/-- Frequencies of the 2-point, 2-band counterexample mesh. -/
def cexW : ℕ → ℕ → ℝ := fun _ i => (i : ℝ)

/-- Eigenvectors of the counterexample: the reference point `0` carries the
identity columns; at point `1` band `0` is `(1, 0)` and band `1` is `(0, 0)`,
so slot `0` picks band `0` outright and slot `1` ties at overlap `0` and
falls back to the first index — band `0` again. -/
noncomputable def cexE : ℕ → ℕ → ℕ → ℂ := fun n a mu =>
  if n = 0 then (if a = mu then 1 else 0)
  else (if mu = 0 ∧ a = 0 then 1 else 0)

theorem cex_key00 : overlapKey 2 cexE 0 1 [0, 1] 0 0 = 1 := by
  rw [overlapKey]
  rw [show ([0, 1] : List ℕ).getD 0 0 = 0 from rfl]
  rw [Finset.sum_range_succ, Finset.sum_range_succ, Finset.sum_range_zero]
  norm_num [cexE]

theorem cex_key01 : overlapKey 2 cexE 0 1 [0, 1] 0 1 = 0 := by
  rw [overlapKey]
  rw [show ([0, 1] : List ℕ).getD 0 0 = 0 from rfl]
  rw [Finset.sum_range_succ, Finset.sum_range_succ, Finset.sum_range_zero]
  norm_num [cexE]

theorem cex_key10 : overlapKey 2 cexE 0 1 [0, 1] 1 0 = 0 := by
  rw [overlapKey]
  rw [show ([0, 1] : List ℕ).getD 1 0 = 1 from rfl]
  rw [Finset.sum_range_succ, Finset.sum_range_succ, Finset.sum_range_zero]
  norm_num [cexE]

theorem cex_key11 : overlapKey 2 cexE 0 1 [0, 1] 1 1 = 0 := by
  rw [overlapKey]
  rw [show ([0, 1] : List ℕ).getD 1 0 = 1 from rfl]
  rw [Finset.sum_range_succ, Finset.sum_range_succ, Finset.sum_range_zero]
  norm_num [cexE]

/-- Claim C7, counterexample: on the 2-point, 2-band input above the greedy
continuity step assigns band `0` to both slots of point `1` — the produced
row `[0, 0]` is not a permutation of the band slots. -/
theorem band_order_row_not_permutation :
    (band_order 2 2 cexW cexE).getD 1 [] = [0, 0]
    ∧ ¬ ((band_order 2 2 cexW cexE).getD 1 []).Nodup := by
  have hrow : band_order 2 2 cexW cexE
      = [[0, 1], [pyMax (overlapKey 2 cexE 0 1 [0, 1] 0) [0, 1],
                  pyMax (overlapKey 2 cexE 0 1 [0, 1] 1) [0, 1]]] := by
    rw [band_order]
    rw [show (List.range (2 - 1)).map (· + 1) = [1] from rfl]
    rw [List.foldl_cons, List.foldl_nil, boStep]
    rfl
  have hp0 : pyMax (overlapKey 2 cexE 0 1 [0, 1] 0) [0, 1] = 0 := by
    rw [pyMax, List.foldl_cons, List.foldl_nil, if_neg]
    rw [cex_key00, cex_key01]
    norm_num
  have hp1 : pyMax (overlapKey 2 cexE 0 1 [0, 1] 1) [0, 1] = 0 := by
    rw [pyMax, List.foldl_cons, List.foldl_nil, if_neg]
    rw [cex_key10, cex_key11]
    norm_num
  rw [hrow, hp0, hp1]
  exact ⟨rfl, by decide⟩

theorem foldl_pymax_mem (key : ℕ → ℝ) (xs : List ℕ) (x : ℕ) :
    xs.foldl (fun best y => if key best < key y then y else best) x ∈ x :: xs := by
  induction xs generalizing x with
  | nil => simp
  | cons z zs ih =>
      rw [List.foldl_cons]
      rcases List.mem_cons.mp (ih (if key x < key z then z else x)) with h' | h'
      · rw [h']
        by_cases hc : key x < key z
        · rw [if_pos hc]
          exact List.mem_cons_of_mem _ (List.mem_cons_self _ _)
        · rw [if_neg hc]
          exact List.mem_cons_self _ _
      · exact List.mem_cons_of_mem _ (List.mem_cons_of_mem _ h')

theorem pyMax_mem (key : ℕ → ℝ) (l : List ℕ) (hl : l ≠ []) : pyMax key l ∈ l := by
  match l, hl with
  | x :: xs, _ => exact foldl_pymax_mem key xs x

theorem pyMax_range_lt (key : ℕ → ℝ) (bands : ℕ) (hb : 0 < bands) :
    pyMax key (List.range bands) < bands := by
  have hne : List.range bands ≠ [] := by
    intro h
    rw [List.range_eq_nil] at h
    omega
  exact List.mem_range.mp (pyMax_mem key _ hne)

theorem boStep_foldl_invariant (bands : ℕ) (w : ℕ → ℕ → ℝ) (e : ℕ → ℕ → ℕ → ℂ)
    (hb : 0 < bands) (ns : List ℕ) :
    ∀ st : ℕ × List (List ℕ),
      (∀ row ∈ st.2, row.length = bands ∧ ∀ v ∈ row, v < bands) →
      ∀ row ∈ (ns.foldl (boStep bands w e) st).2,
        row.length = bands ∧ ∀ v ∈ row, v < bands := by
  induction ns with
  | nil => intro st h; exact h
  | cons n ns ih =>
      intro st h
      rw [List.foldl_cons]
      apply ih
      intro row hrow
      rcases List.mem_append.mp hrow with hold | hnew
      · exact h row hold
      · rw [List.mem_singleton] at hnew
        subst hnew
        refine ⟨by rw [List.length_map, List.length_range], ?_⟩
        intro v hv
        rcases List.mem_map.mp hv with ⟨nu, _, rfl⟩
        exact pyMax_range_lt _ bands hb

theorem boStep_foldl_head (bands : ℕ) (w : ℕ → ℕ → ℝ) (e : ℕ → ℕ → ℕ → ℂ)
    (ns : List ℕ) :
    ∀ st : ℕ × List (List ℕ), st.2 ≠ [] →
      (ns.foldl (boStep bands w e) st).2 ≠ [] ∧
      ∀ d, (ns.foldl (boStep bands w e) st).2.getD 0 d = st.2.getD 0 d := by
  induction ns with
  | nil => intro st h; exact ⟨h, fun _ => rfl⟩
  | cons n ns ih =>
      intro st h
      rw [List.foldl_cons]
      have hne : (boStep bands w e st n).2 ≠ [] := by
        show st.2 ++ _ ≠ []
        simp [h]
      obtain ⟨h1, h2⟩ := ih (boStep bands w e st n) hne
      refine ⟨h1, fun d => ?_⟩
      rw [h2 d]
      show (st.2 ++ _).getD 0 d = st.2.getD 0 d
      match st.2, h with
      | x :: t, _ => rfl

/-- Claim C7, amended: every row produced by the greedy continuity step has
one entry per band slot and every entry is a valid band index below `bands`
(each being the first index of maximal overlap), with the first path point
carrying the identity order; the rows need not be permutations — two slots
can receive the same band, as the counterexample shows. -/
theorem band_order_rows_in_range (Npts bands : ℕ) (w : ℕ → ℕ → ℝ)
    (e : ℕ → ℕ → ℕ → ℂ) (hb : 0 < bands) :
    (band_order Npts bands w e).getD 0 [] = List.range bands
    ∧ ∀ row ∈ band_order Npts bands w e,
        row.length = bands ∧ ∀ v ∈ row, v < bands := by
  constructor
  · rw [band_order]
    rw [(boStep_foldl_head bands w e _ (0, [List.range bands]) (by simp)).2 []]
    rfl
  · exact boStep_foldl_invariant bands w e hb _ (0, [List.range bands])
      (by
        intro row hrow
        rw [List.mem_singleton] at hrow
        subst hrow
        exact ⟨List.length_range bands, fun v hv => List.mem_range.mp hv⟩)

theorem band_order_rows_in_range_witness :
    0 < 2 ∧
    ((band_order 2 2 cexW cexE).getD 0 [] = List.range 2
    ∧ ∀ row ∈ band_order 2 2 cexW cexE,
        row.length = 2 ∧ ∀ v ∈ row, v < 2) :=
  ⟨by norm_num, band_order_rows_in_range 2 2 cexW cexE (by norm_num)⟩

/-! ## Acoustic sum rule and the zero mode at `q = 0` -/

/-- Source `asr(phid)`: each atom's self-coupling `phid[na1, na1, 0, 0, 0]` is
replaced by minus the sum of all its other couplings (those with
`na1 != na2 or m1 or m2 or m3`); other entries are untouched. The source
mutates in place, but the entries it writes are never among the entries it
reads, so the functional update is equivalent. -/
def asrPhid (p : PhInput) : PhInput :=
  { p with phid := fun na1 na2 m1 m2 m3 i j =>
      if na1 = na2 ∧ m1 = 0 ∧ m2 = 0 ∧ m3 = 0 then
        -∑ x ∈ ((Finset.range p.natoms) ×ˢ (Finset.range p.nr1) ×ˢ
            (Finset.range p.nr2) ×ˢ (Finset.range p.nr3)).filter
            (fun x => ¬(x.1 = na1 ∧ x.2.1 = 0 ∧ x.2.2.1 = 0 ∧ x.2.2.2 = 0)),
          p.phid na1 x.1 x.2.1 x.2.2.1 x.2.2.2 i j
      else p.phid na1 na2 m1 m2 m3 i j }

theorem asrPhid_natoms (p : PhInput) : (asrPhid p).natoms = p.natoms := rfl

theorem asrPhid_amass (p : PhInput) : (asrPhid p).amass = p.amass := rfl

theorem asrPhid_nr1 (p : PhInput) : (asrPhid p).nr1 = p.nr1 := rfl

theorem asrPhid_nr2 (p : PhInput) : (asrPhid p).nr2 = p.nr2 := rfl

theorem asrPhid_nr3 (p : PhInput) : (asrPhid p).nr3 = p.nr3 := rfl

/-- After the acoustic sum rule, each atom's couplings sum to zero over all
atoms and cells, for every pair of Cartesian components. -/
theorem asr_zero_sum (p : PhInput) (a i j : ℕ) (ha : a < p.natoms)
    (h1 : 0 < p.nr1) (h2 : 0 < p.nr2) (h3 : 0 < p.nr3) :
    ∑ x ∈ (Finset.range p.natoms) ×ˢ (Finset.range p.nr1) ×ˢ
        (Finset.range p.nr2) ×ˢ (Finset.range p.nr3),
      (asrPhid p).phid a x.1 x.2.1 x.2.2.1 x.2.2.2 i j = 0 := by
  set S := (Finset.range p.natoms) ×ˢ (Finset.range p.nr1) ×ˢ
      (Finset.range p.nr2) ×ˢ (Finset.range p.nr3) with hS
  set x0 : ℕ × ℕ × ℕ × ℕ := (a, 0, 0, 0) with hx0
  have hx0S : x0 ∈ S := by
    simp [hS, hx0, Finset.mem_product, ha, h1, h2, h3]
  have herase : S.filter (fun x => ¬(x.1 = a ∧ x.2.1 = 0 ∧ x.2.2.1 = 0 ∧ x.2.2.2 = 0))
      = S.erase x0 := by
    ext x
    rw [Finset.mem_filter, Finset.mem_erase]
    constructor
    · rintro ⟨hxS, hcond⟩
      refine ⟨?_, hxS⟩
      intro hx
      apply hcond
      rw [hx]
      exact ⟨rfl, rfl, rfl, rfl⟩
    · rintro ⟨hne, hxS⟩
      refine ⟨hxS, ?_⟩
      rintro ⟨e1, e2, e3, e4⟩
      apply hne
      rw [hx0]
      obtain ⟨y1, y2, y3, y4⟩ := x
      simp only at e1 e2 e3 e4
      rw [e1, e2, e3, e4]
  have hdiag : (asrPhid p).phid a a 0 0 0 i j
      = -∑ x ∈ S.erase x0, p.phid a x.1 x.2.1 x.2.2.1 x.2.2.2 i j := by
    rw [show (asrPhid p).phid a a 0 0 0 i j
        = if a = a ∧ (0 : ℕ) = 0 ∧ (0 : ℕ) = 0 ∧ (0 : ℕ) = 0 then
            -∑ x ∈ S.filter
              (fun x => ¬(x.1 = a ∧ x.2.1 = 0 ∧ x.2.2.1 = 0 ∧ x.2.2.2 = 0)),
              p.phid a x.1 x.2.1 x.2.2.1 x.2.2.2 i j
          else p.phid a a 0 0 0 i j from rfl]
    rw [if_pos ⟨rfl, rfl, rfl, rfl⟩, herase]
  have hoff : ∀ x ∈ S.erase x0,
      (asrPhid p).phid a x.1 x.2.1 x.2.2.1 x.2.2.2 i j
        = p.phid a x.1 x.2.1 x.2.2.1 x.2.2.2 i j := by
    intro x hx
    obtain ⟨hne, _⟩ := Finset.mem_erase.mp hx
    show (if a = x.1 ∧ x.2.1 = 0 ∧ x.2.2.1 = 0 ∧ x.2.2.2 = 0 then _ else _) = _
    rw [if_neg]
    rintro ⟨e1, e2, e3, e4⟩
    apply hne
    rw [hx0]
    obtain ⟨y1, y2, y3, y4⟩ := x
    simp only at e1 e2 e3 e4
    rw [← e1, e2, e3, e4]
  rw [← Finset.sum_erase_add S _ hx0S]
  rw [Finset.sum_congr rfl hoff]
  rw [show (asrPhid p).phid a x0.1 x0.2.1 x0.2.2.1 x0.2.2.2 i j
      = (asrPhid p).phid a a 0 0 0 i j from rfl]
  rw [hdiag]
  ring

/-- The gathered spring list over all cells and atom pairs (loop order
`m1, m2, m3, na1, na2` as in the source; the MPI gather concatenates the
per-rank subsequences, a permutation of this order — all uses below are
permutation-invariant sums). -/
noncomputable def allSprings (p : PhInput) (eps : ℝ) : List Spring :=
  (List.range p.nr1).bind fun m1 =>
    (List.range p.nr2).bind fun m2 =>
      (List.range p.nr3).bind fun m3 =>
        (List.range p.natoms).bind fun na1 =>
          (List.range p.natoms).bind fun na2 =>
            springsFor p eps m1 m2 m3 na1 na2

theorem list_sum_bind {α : Type} (l : List α) (f : α → List ℂ) :
    (l.bind f).sum = (l.map fun a => (f a).sum).sum := by
  induction l with
  | nil => rfl
  | cons x xs ih =>
      rw [show (x :: xs).bind f = f x ++ xs.bind f from rfl,
        List.sum_append, List.map_cons, List.sum_cons, ih]

theorem list_range_map_sum (n : ℕ) (f : ℕ → ℂ) :
    ((List.range n).map f).sum = ∑ i ∈ Finset.range n, f i := by
  induction n with
  | zero => rfl
  | succ n ih =>
      rw [List.range_succ, List.map_append, List.sum_append,
        Finset.sum_range_succ, ih]
      simp

/-- At the zero wavevector the phase factor is `1`. -/
theorem springTerm_zero (nt x y : ℕ) (s : Spring) :
    springTerm nt 0 0 0 x y s
      = if s.na1 = x % nt ∧ s.na2 = y % nt
        then ((s.C (x / nt) (y / nt) : ℝ) : ℂ) else 0 := by
  rw [springTerm]
  by_cases h : s.na1 = x % nt ∧ s.na2 = y % nt
  · rw [if_pos h, if_pos h]
    norm_num
  · rw [if_neg h, if_neg h]

/-- Block value of the dynamical matrix at `q = 0` contributed by one
`(m1, m2, m3, na1, na2)` entry. -/
theorem block_sum (p : PhInput) (eps : ℝ) (m1 m2 m3 na1 na2 x y : ℕ)
    (heps : 0 < eps) :
    ((springsFor p eps m1 m2 m3 na1 na2).map (springTerm p.natoms 0 0 0 x y)).sum
      = if na1 = x % p.natoms ∧ na2 = y % p.natoms
        then ((p.phid na1 na2 m1 m2 m3 (x / p.natoms) (y / p.natoms)
              / Real.sqrt (p.amass na1 * p.amass na2) : ℝ) : ℂ)
        else 0 := by
  by_cases h : na1 = x % p.natoms ∧ na2 = y % p.natoms
  · rw [if_pos h]
    have hcongr : ∀ s ∈ springsFor p eps m1 m2 m3 na1 na2,
        springTerm p.natoms 0 0 0 x y s
          = ((s.C (x / p.natoms) (y / p.natoms) : ℝ) : ℂ) := by
      intro s hs
      obtain ⟨c, _, rfl⟩ := List.mem_map.mp hs
      rw [springTerm_zero, if_pos h]
    rw [List.map_congr_left hcongr]
    rw [show (fun s : Spring => ((s.C (x / p.natoms) (y / p.natoms) : ℝ) : ℂ))
        = (fun r : ℝ => (r : ℂ)) ∘ (fun s : Spring => s.C (x / p.natoms) (y / p.natoms))
        from rfl]
    rw [← List.map_map]
    rw [show (fun r : ℝ => (r : ℂ)) = (Complex.ofRealHom : ℝ →+* ℂ) from rfl]
    rw [← map_list_sum (Complex.ofRealHom : ℝ →+* ℂ)]
    rw [springsFor_sum p eps m1 m2 m3 na1 na2 (x / p.natoms) (y / p.natoms) heps]
    rfl
  · rw [if_neg h]
    apply List.sum_eq_zero
    intro z hz
    rcases List.mem_map.mp hz with ⟨s, hs, rfl⟩
    obtain ⟨c, _, rfl⟩ := List.mem_map.mp hs
    rw [springTerm_zero, if_neg h]

/-- Entry `(x, y)` of the dynamical matrix at `q = 0` over the full spring
list: the summed force constants of the addressed atom pair, divided by the
mass factor. -/
theorem dynMat_allSprings_zero (p : PhInput) (eps : ℝ) (x y : ℕ)
    (heps : 0 < eps) (hx : x % p.natoms < p.natoms) (hy : y % p.natoms < p.natoms) :
    dynMat (allSprings p eps) p.natoms 0 0 0 x y
      = (((∑ m1 ∈ Finset.range p.nr1, ∑ m2 ∈ Finset.range p.nr2,
            ∑ m3 ∈ Finset.range p.nr3,
              p.phid (x % p.natoms) (y % p.natoms) m1 m2 m3
                (x / p.natoms) (y / p.natoms))
          / Real.sqrt (p.amass (x % p.natoms) * p.amass (y % p.natoms)) : ℝ) : ℂ) := by
  have expand : dynMat (allSprings p eps) p.natoms 0 0 0 x y
      = ∑ m1 ∈ Finset.range p.nr1, ∑ m2 ∈ Finset.range p.nr2,
          ∑ m3 ∈ Finset.range p.nr3, ∑ na1 ∈ Finset.range p.natoms,
            ∑ na2 ∈ Finset.range p.natoms,
              ((springsFor p eps m1 m2 m3 na1 na2).map
                (springTerm p.natoms 0 0 0 x y)).sum := by
    rw [dynMat, allSprings, List.map_bind, list_sum_bind, list_range_map_sum]
    refine Finset.sum_congr rfl fun m1 _ => ?_
    rw [List.map_bind, list_sum_bind, list_range_map_sum]
    refine Finset.sum_congr rfl fun m2 _ => ?_
    rw [List.map_bind, list_sum_bind, list_range_map_sum]
    refine Finset.sum_congr rfl fun m3 _ => ?_
    rw [List.map_bind, list_sum_bind, list_range_map_sum]
    refine Finset.sum_congr rfl fun na1 _ => ?_
    rw [List.map_bind, list_sum_bind, list_range_map_sum]
  have hinner : ∀ m1 m2 m3 : ℕ,
      ∑ na1 ∈ Finset.range p.natoms, ∑ na2 ∈ Finset.range p.natoms,
        ((springsFor p eps m1 m2 m3 na1 na2).map
          (springTerm p.natoms 0 0 0 x y)).sum
      = ((p.phid (x % p.natoms) (y % p.natoms) m1 m2 m3
            (x / p.natoms) (y / p.natoms)
          / Real.sqrt (p.amass (x % p.natoms) * p.amass (y % p.natoms)) : ℝ) : ℂ) := by
    intro m1 m2 m3
    have hrw : ∀ na1 ∈ Finset.range p.natoms,
        ∑ na2 ∈ Finset.range p.natoms,
          ((springsFor p eps m1 m2 m3 na1 na2).map
            (springTerm p.natoms 0 0 0 x y)).sum
        = if na1 = x % p.natoms
          then ((p.phid na1 (y % p.natoms) m1 m2 m3
                (x / p.natoms) (y / p.natoms)
              / Real.sqrt (p.amass na1 * p.amass (y % p.natoms)) : ℝ) : ℂ)
          else 0 := by
      intro na1 _
      by_cases hna : na1 = x % p.natoms
      · rw [if_pos hna]
        have : ∀ na2 ∈ Finset.range p.natoms,
            ((springsFor p eps m1 m2 m3 na1 na2).map
              (springTerm p.natoms 0 0 0 x y)).sum
            = if na2 = y % p.natoms
              then ((p.phid na1 na2 m1 m2 m3 (x / p.natoms) (y / p.natoms)
                  / Real.sqrt (p.amass na1 * p.amass na2) : ℝ) : ℂ)
              else 0 := by
          intro na2 _
          rw [block_sum p eps m1 m2 m3 na1 na2 x y heps]
          by_cases hnb : na2 = y % p.natoms
          · rw [if_pos ⟨hna, hnb⟩, if_pos hnb]
          · rw [if_neg (fun hh => hnb hh.2), if_neg hnb]
        rw [Finset.sum_congr rfl this,
          Finset.sum_ite_eq' (Finset.range p.natoms) (y % p.natoms),
          if_pos (Finset.mem_range.mpr hy)]
      · rw [if_neg hna]
        apply Finset.sum_eq_zero
        intro na2 _
        rw [block_sum p eps m1 m2 m3 na1 na2 x y heps,
          if_neg (fun hh => hna hh.1)]
    rw [Finset.sum_congr rfl hrw,
      Finset.sum_ite_eq' (Finset.range p.natoms) (x % p.natoms),
      if_pos (Finset.mem_range.mpr hx)]
  rw [expand,
    Finset.sum_congr rfl fun m1 _ => Finset.sum_congr rfl fun m2 _ =>
      Finset.sum_congr rfl fun m3 _ => hinner m1 m2 m3]
  push_cast
  simp only [Finset.sum_div]

theorem sum_range_three_blocks (nt : ℕ) (f : ℕ → ℂ) :
    ∑ y ∈ Finset.range (3 * nt), f y
      = (∑ b ∈ Finset.range nt, f (b + 0 * nt))
        + (∑ b ∈ Finset.range nt, f (b + 1 * nt))
        + (∑ b ∈ Finset.range nt, f (b + 2 * nt)) := by
  rw [Finset.range_eq_Ico,
    ← Finset.sum_Ico_consecutive f (Nat.zero_le (2 * nt))
      (by omega : 2 * nt ≤ 3 * nt),
    ← Finset.sum_Ico_consecutive f (Nat.zero_le nt) (by omega : nt ≤ 2 * nt)]
  congr 1
  · congr 1
    · rw [← Finset.range_eq_Ico]
      exact Finset.sum_congr rfl fun b _ => by congr 1; omega
    · rw [Finset.sum_Ico_eq_sum_range]
      rw [show 2 * nt - nt = nt by omega, ← Finset.range_eq_Ico]
      exact Finset.sum_congr rfl fun b _ => by congr 1; omega
  · rw [Finset.sum_Ico_eq_sum_range]
    rw [show 3 * nt - 2 * nt = nt by omega, ← Finset.range_eq_Ico]
    exact Finset.sum_congr rfl fun b _ => by congr 1; omega

/-- The uniform mass-weighted translational displacement along Cartesian
direction `d`: component `sqrt(amass[b])` on atom `b`'s `d`-th degree of
freedom, `0` elsewhere (layout `y = b + natoms * j`). -/
noncomputable def transVec (p : PhInput) (d : ℕ) (y : ℕ) : ℂ :=
  if y / p.natoms = d then ((Real.sqrt (p.amass (y % p.natoms)) : ℝ) : ℂ) else 0

theorem transVec_eval (p : PhInput) (d k b : ℕ) (hnt : 0 < p.natoms)
    (hb : b < p.natoms) :
    transVec p d (b + k * p.natoms)
      = if k = d then ((Real.sqrt (p.amass b) : ℝ) : ℂ) else 0 := by
  rw [transVec, Nat.add_mul_div_right b k hnt, Nat.div_eq_of_lt hb,
    Nat.add_mul_mod_self_right, Nat.mod_eq_of_lt hb, zero_add]

/-- Claim C5: after the acoustic sum rule, the dynamical matrix at the zero
wavevector annihilates the uniform mass-weighted translational displacement
in every Cartesian direction `d < 3`, and that displacement is nonzero — so
`0` is an eigenvalue of `D(0)`. -/
theorem asr_zero_mode (p : PhInput) (eps : ℝ) (d : ℕ) (heps : 0 < eps)
    (hnt : 0 < p.natoms) (h1 : 0 < p.nr1) (h2 : 0 < p.nr2) (h3 : 0 < p.nr3)
    (hd : d < 3) (hmass : ∀ a < p.natoms, 0 < p.amass a) :
    (∀ x : ℕ,
      ∑ y ∈ Finset.range (3 * p.natoms),
        dynMat (allSprings (asrPhid p) eps) p.natoms 0 0 0 x y * transVec p d y
          = 0)
    ∧ transVec p d (d * p.natoms) ≠ 0 := by
  constructor
  · intro x
    have hx : x % p.natoms < p.natoms := Nat.mod_lt _ hnt
    have hma : 0 < p.amass (x % p.natoms) := hmass _ hx
    have hblock : ∀ k, k ≠ d → ∀ b ∈ Finset.range p.natoms,
        dynMat (allSprings (asrPhid p) eps) p.natoms 0 0 0 x (b + k * p.natoms)
          * transVec p d (b + k * p.natoms) = 0 := by
      intro k hk b hb
      rw [transVec_eval p d k b hnt (Finset.mem_range.mp hb), if_neg hk, mul_zero]
    have hdblock : ∑ b ∈ Finset.range p.natoms,
        dynMat (allSprings (asrPhid p) eps) p.natoms 0 0 0 x (b + d * p.natoms)
          * transVec p d (b + d * p.natoms) = 0 := by
      have hterm : ∀ b ∈ Finset.range p.natoms,
          dynMat (allSprings (asrPhid p) eps) p.natoms 0 0 0 x (b + d * p.natoms)
            * transVec p d (b + d * p.natoms)
          = (((∑ m1 ∈ Finset.range p.nr1, ∑ m2 ∈ Finset.range p.nr2,
                ∑ m3 ∈ Finset.range p.nr3,
                  (asrPhid p).phid (x % p.natoms) b m1 m2 m3
                    (x / p.natoms) d)
              / Real.sqrt (p.amass (x % p.natoms)) : ℝ) : ℂ) := by
        intro b hb
        have hbn : b < p.natoms := Finset.mem_range.mp hb
        have hmb : 0 < p.amass b := hmass b hbn
        have hymod : (b + d * p.natoms) % p.natoms = b := by
          rw [Nat.add_mul_mod_self_right, Nat.mod_eq_of_lt hbn]
        have hydiv : (b + d * p.natoms) / p.natoms = d := by
          rw [Nat.add_mul_div_right b d hnt, Nat.div_eq_of_lt hbn, zero_add]
        have hD := dynMat_allSprings_zero (asrPhid p) eps x (b + d * p.natoms)
          heps (by exact hx) (by rw [asrPhid_natoms, hymod]; exact hbn)
        rw [asrPhid_natoms, asrPhid_amass, asrPhid_nr1, asrPhid_nr2, asrPhid_nr3,
          hymod, hydiv] at hD
        rw [transVec_eval p d d b hnt hbn, if_pos rfl, hD]
        rw [← Complex.ofReal_mul]
        congr 1
        rw [Real.sqrt_mul (le_of_lt hma)]
        rw [div_mul_eq_mul_div, mul_div_mul_right _ _
          (Real.sqrt_pos.mpr hmb).ne']
      rw [Finset.sum_congr rfl hterm]
      rw [← Complex.ofReal_sum]
      rw [show (0 : ℂ) = ((0 : ℝ) : ℂ) from rfl]
      congr 1
      rw [← Finset.sum_div]
      have hzero : ∑ b ∈ Finset.range p.natoms,
          ∑ m1 ∈ Finset.range p.nr1, ∑ m2 ∈ Finset.range p.nr2,
            ∑ m3 ∈ Finset.range p.nr3,
              (asrPhid p).phid (x % p.natoms) b m1 m2 m3 (x / p.natoms) d
          = 0 := by
        have h := asr_zero_sum p (x % p.natoms) (x / p.natoms) d hx h1 h2 h3
        rw [Finset.sum_product] at h
        calc ∑ b ∈ Finset.range p.natoms, ∑ m1 ∈ Finset.range p.nr1,
              ∑ m2 ∈ Finset.range p.nr2, ∑ m3 ∈ Finset.range p.nr3,
                (asrPhid p).phid (x % p.natoms) b m1 m2 m3 (x / p.natoms) d
            = ∑ b ∈ Finset.range p.natoms,
                ∑ z ∈ (Finset.range p.nr1) ×ˢ (Finset.range p.nr2) ×ˢ
                    (Finset.range p.nr3),
                  (asrPhid p).phid (x % p.natoms) b z.1 z.2.1 z.2.2
                    (x / p.natoms) d := by
              refine Finset.sum_congr rfl fun b _ => ?_
              rw [Finset.sum_product]
              refine Finset.sum_congr rfl fun m1 _ => ?_
              rw [Finset.sum_product]
          _ = 0 := h
      rw [hzero, zero_div]
    rw [sum_range_three_blocks]
    rcases (by omega : d = 0 ∨ d = 1 ∨ d = 2) with rfl | rfl | rfl
    · rw [hdblock, Finset.sum_eq_zero (hblock 1 (by omega)),
        Finset.sum_eq_zero (hblock 2 (by omega))]
      ring
    · rw [hdblock, Finset.sum_eq_zero (hblock 0 (by omega)),
        Finset.sum_eq_zero (hblock 2 (by omega))]
      ring
    · rw [hdblock, Finset.sum_eq_zero (hblock 0 (by omega)),
        Finset.sum_eq_zero (hblock 1 (by omega))]
      ring
  · rw [show d * p.natoms = 0 + d * p.natoms by omega,
      transVec_eval p d d 0 hnt hnt, if_pos rfl]
    exact Complex.ofReal_ne_zero.mpr (Real.sqrt_pos.mpr (hmass 0 hnt)).ne'

theorem asr_zero_mode_witness :
    ((0 : ℝ) < 1e-7 ∧ 0 < (chainInput constPhi).natoms
      ∧ 0 < (chainInput constPhi).nr1 ∧ 0 < (chainInput constPhi).nr2
      ∧ 0 < (chainInput constPhi).nr3 ∧ (0 : ℕ) < 3
      ∧ ∀ a < (chainInput constPhi).natoms, 0 < (chainInput constPhi).amass a)
    ∧ ((∀ x : ℕ,
        ∑ y ∈ Finset.range (3 * (chainInput constPhi).natoms),
          dynMat (allSprings (asrPhid (chainInput constPhi)) 1e-7)
              (chainInput constPhi).natoms 0 0 0 x y
            * transVec (chainInput constPhi) 0 y = 0)
      ∧ transVec (chainInput constPhi) 0 (0 * (chainInput constPhi).natoms) ≠ 0) :=
  ⟨⟨by norm_num, by norm_num [chainInput], by norm_num [chainInput],
    by norm_num [chainInput], by norm_num [chainInput], by norm_num,
    fun a _ => by norm_num [chainInput]⟩,
    asr_zero_mode (chainInput constPhi) 1e-7 0 (by norm_num)
      (by norm_num [chainInput]) (by norm_num [chainInput])
      (by norm_num [chainInput]) (by norm_num [chainInput]) (by norm_num)
      (fun a _ => by norm_num [chainInput])⟩

/-! ## Per-worker buffer bound (spring-list builder) -/

/-- Buffer size `maxdim = nat ** 2 * nr1 * nr2 * nr3 * 27 // comm.size`:
the pre-sized local buffer capacity of each worker. -/
def maxdim (p : PhInput) (W : ℕ) : ℕ :=
  p.natoms ^ 2 * p.nr1 * p.nr2 * p.nr3 * 27 / W

/-- Flat 0-based index of cell `(m1, m2, m3)` in the source's loop order. -/
def cellIndex (p : PhInput) (m1 m2 m3 : ℕ) : ℕ := (m1 * p.nr2 + m2) * p.nr3 + m3

/-- The number of springs worker `r` of `W` accumulates: `len(selected)`
summed over its round-robin share of cell entries and all atom pairs. -/
noncomputable def workerSprings (p : PhInput) (eps : ℝ) (W r : ℕ) : ℕ :=
  ∑ m1 ∈ Finset.range p.nr1, ∑ m2 ∈ Finset.range p.nr2,
    ∑ m3 ∈ Finset.range p.nr3,
      if (cellIndex p m1 m2 m3 + 1) % W = r then
        ∑ na1 ∈ Finset.range p.natoms, ∑ na2 ∈ Finset.range p.natoms,
          (springsFor p eps m1 m2 m3 na1 na2).length
      else 0

theorem springsFor_length_le (p : PhInput) (eps : ℝ) (m1 m2 m3 na1 na2 : ℕ) :
    (springsFor p eps m1 m2 m3 na1 na2).length ≤ 27 := by
  rw [springsFor, List.length_map]
  calc (selectedCopies p eps m1 m2 m3 na1 na2).length
      ≤ (copies p m1 m2 m3).length := List.length_filter_le _ _
    _ = 27 := copies_length p m1 m2 m3

theorem pairSum_le (p : PhInput) (eps : ℝ) (m1 m2 m3 : ℕ) :
    ∑ na1 ∈ Finset.range p.natoms, ∑ na2 ∈ Finset.range p.natoms,
      (springsFor p eps m1 m2 m3 na1 na2).length ≤ p.natoms ^ 2 * 27 := by
  calc ∑ na1 ∈ Finset.range p.natoms, ∑ na2 ∈ Finset.range p.natoms,
        (springsFor p eps m1 m2 m3 na1 na2).length
      ≤ ∑ _na1 ∈ Finset.range p.natoms, ∑ _na2 ∈ Finset.range p.natoms, 27 :=
        Finset.sum_le_sum fun na1 _ => Finset.sum_le_sum fun na2 _ =>
          springsFor_length_le p eps m1 m2 m3 na1 na2
    _ = p.natoms ^ 2 * 27 := by
        rw [Finset.sum_const, Finset.sum_const, Finset.card_range, smul_eq_mul,
          smul_eq_mul]
        ring

theorem mul_add_inj {n a b c d : ℕ} (hb : b < n) (hd : d < n)
    (h : a * n + b = c * n + d) : a = c ∧ b = d := by
  have h1 : a = c := by
    by_contra hne
    rcases Nat.lt_or_ge a c with hlt | hge
    · have hc : a + 1 ≤ c := hlt
      nlinarith
    · have hgt : c + 1 ≤ a := lt_of_le_of_ne hge (Ne.symm hne)
      nlinarith
  subst h1
  exact ⟨rfl, by omega⟩

theorem cellIndex_lt (p : PhInput) {m1 m2 m3 : ℕ} (h1 : m1 < p.nr1)
    (h2 : m2 < p.nr2) (h3 : m3 < p.nr3) :
    cellIndex p m1 m2 m3 < p.nr1 * p.nr2 * p.nr3 := by
  calc cellIndex p m1 m2 m3 = (m1 * p.nr2 + m2) * p.nr3 + m3 := rfl
    _ < (m1 * p.nr2 + m2) * p.nr3 + p.nr3 := by omega
    _ = (m1 * p.nr2 + m2 + 1) * p.nr3 := by ring
    _ ≤ (p.nr1 * p.nr2) * p.nr3 := by
        apply Nat.mul_le_mul_right
        calc m1 * p.nr2 + m2 + 1 ≤ m1 * p.nr2 + p.nr2 := by omega
          _ = (m1 + 1) * p.nr2 := by ring
          _ ≤ p.nr1 * p.nr2 := Nat.mul_le_mul_right _ (by omega)
    _ = p.nr1 * p.nr2 * p.nr3 := by ring

theorem owned_card_le (N W r : ℕ) (hW : 0 < W) (hdvd : W ∣ N) :
    ((Finset.range N).filter (fun i => (i + 1) % W = r)).card ≤ N / W := by
  have := Finset.card_le_card_of_injOn (fun i => i / W)
    (s := (Finset.range N).filter (fun i => (i + 1) % W = r))
    (t := Finset.range (N / W)) ?_ ?_
  · rwa [Finset.card_range] at this
  · intro i hi
    rw [Finset.mem_filter, Finset.mem_range] at hi
    rw [Finset.mem_range]
    exact Nat.div_lt_div_of_lt_of_dvd hdvd hi.1
  · intro i hi j hj hij
    simp only [Finset.coe_filter, Set.mem_setOf_eq, Finset.mem_range] at hi hj
    have hmod : i % W = j % W := by
      have h12 : (i + 1) % W = (j + 1) % W := by rw [hi.2, hj.2]
      exact Nat.ModEq.add_right_cancel' 1 h12
    have hij2 : i / W = j / W := hij
    calc i = W * (i / W) + i % W := (Nat.div_add_mod i W).symm
      _ = W * (j / W) + j % W := by rw [hij2, hmod]
      _ = j := Nat.div_add_mod j W

/-- Claim C9, amended: each worker's spring count stays within the pre-sized
buffer capacity `maxdim` whenever the worker count divides the cell count
`nr1*nr2*nr3`; the accompanying counterexample shows the capacity can be
exceeded otherwise. -/
theorem workerSprings_le_maxdim (p : PhInput) (eps : ℝ) (W r : ℕ)
    (hW : 0 < W) (hdvd : W ∣ p.nr1 * p.nr2 * p.nr3) :
    workerSprings p eps W r ≤ maxdim p W := by
  set S3 := (Finset.range p.nr1) ×ˢ (Finset.range p.nr2) ×ˢ (Finset.range p.nr3)
    with hS3
  have hflat : workerSprings p eps W r
      = ∑ x ∈ S3, if (cellIndex p x.1 x.2.1 x.2.2 + 1) % W = r then
          ∑ na1 ∈ Finset.range p.natoms, ∑ na2 ∈ Finset.range p.natoms,
            (springsFor p eps x.1 x.2.1 x.2.2 na1 na2).length
        else 0 := by
    rw [workerSprings, hS3, Finset.sum_product]
    refine Finset.sum_congr rfl fun m1 _ => ?_
    rw [Finset.sum_product]
  have hbound : workerSprings p eps W r
      ≤ ∑ x ∈ S3, if (cellIndex p x.1 x.2.1 x.2.2 + 1) % W = r then
          p.natoms ^ 2 * 27 else 0 := by
    rw [hflat]
    apply Finset.sum_le_sum
    intro x _
    by_cases h : (cellIndex p x.1 x.2.1 x.2.2 + 1) % W = r
    · rw [if_pos h, if_pos h]
      exact pairSum_le p eps x.1 x.2.1 x.2.2
    · rw [if_neg h, if_neg h]
  have hconst : ∑ x ∈ S3, (if (cellIndex p x.1 x.2.1 x.2.2 + 1) % W = r then
        p.natoms ^ 2 * 27 else 0)
      = (S3.filter (fun x => (cellIndex p x.1 x.2.1 x.2.2 + 1) % W = r)).card
          * (p.natoms ^ 2 * 27) := by
    rw [← Finset.sum_filter, Finset.sum_const, smul_eq_mul]
  have hcard : (S3.filter
        (fun x => (cellIndex p x.1 x.2.1 x.2.2 + 1) % W = r)).card
      ≤ p.nr1 * p.nr2 * p.nr3 / W := by
    have hinj : (S3.filter
          (fun x => (cellIndex p x.1 x.2.1 x.2.2 + 1) % W = r)).card
        ≤ ((Finset.range (p.nr1 * p.nr2 * p.nr3)).filter
            (fun i => (i + 1) % W = r)).card := by
      apply Finset.card_le_card_of_injOn (fun x => cellIndex p x.1 x.2.1 x.2.2)
      · intro x hx
        rw [Finset.mem_filter] at hx
        obtain ⟨hxS, hxr⟩ := hx
        rw [hS3, Finset.mem_product, Finset.mem_product] at hxS
        rw [Finset.mem_filter, Finset.mem_range]
        exact ⟨cellIndex_lt p (Finset.mem_range.mp hxS.1)
          (Finset.mem_range.mp hxS.2.1) (Finset.mem_range.mp hxS.2.2), hxr⟩
      · intro x hx y hy hxy
        simp only [Finset.coe_filter, Set.mem_setOf_eq] at hx hy
        obtain ⟨hxS, _⟩ := hx
        obtain ⟨hyS, _⟩ := hy
        rw [hS3, Finset.mem_product, Finset.mem_product] at hxS hyS
        simp only at hxy
        have h3x := Finset.mem_range.mp hxS.2.2
        have h3y := Finset.mem_range.mp hyS.2.2
        have h2x := Finset.mem_range.mp hxS.2.1
        have h2y := Finset.mem_range.mp hyS.2.1
        obtain ⟨hA, hm3⟩ := mul_add_inj h3x h3y hxy
        obtain ⟨hm1, hm2⟩ := mul_add_inj h2x h2y hA
        obtain ⟨x1, x2, x3⟩ := x
        obtain ⟨y1, y2, y3⟩ := y
        simp only at hm1 hm2 hm3
        rw [hm1, hm2, hm3]
    exact le_trans hinj (owned_card_le (p.nr1 * p.nr2 * p.nr3) W r hW hdvd)
  calc workerSprings p eps W r
      ≤ (S3.filter (fun x => (cellIndex p x.1 x.2.1 x.2.2 + 1) % W = r)).card
          * (p.natoms ^ 2 * 27) := le_of_le_of_eq hbound hconst
    _ ≤ (p.nr1 * p.nr2 * p.nr3 / W) * (p.natoms ^ 2 * 27) :=
        Nat.mul_le_mul_right _ hcard
    _ = maxdim p W := by
        obtain ⟨q, hq⟩ := hdvd
        have hre : p.natoms ^ 2 * p.nr1 * p.nr2 * p.nr3 * 27
            = p.nr1 * p.nr2 * p.nr3 * (p.natoms ^ 2 * 27) := by ring
        rw [maxdim, hre, hq, Nat.mul_div_cancel_left q hW, mul_assoc,
          Nat.mul_div_cancel_left _ hW]

/-- A single-cell, single-atom crystal with unit mass and orthonormal
lattice vectors. -/
def cubeInput : PhInput where
  natoms := 1
  nr1 := 1
  nr2 := 1
  nr3 := 1
  phid := constPhi
  amass := fun _ => 1
  lat := fun i j => if i = j then 1 else 0
  tau := fun _ _ => 0

/-- Claim C9, counterexample: with 28 workers on a single-cell, single-atom
input the buffer capacity is `1 * 1 * 27 // 28 = 0`, yet worker `1` — the
round-robin owner of the only entry — emits at least one spring, so its
first write is already out of bounds. -/
theorem worker_buffer_overflow :
    ¬ (workerSprings cubeInput 1e-7 28 1 ≤ maxdim cubeInput 28) := by
  have hmd : maxdim cubeInput 28 = 0 := rfl
  have hws : workerSprings cubeInput 1e-7 28 1
      = (springsFor cubeInput 1e-7 0 0 0 0 0).length := by
    rw [workerSprings]
    rw [show cubeInput.nr1 = 1 from rfl, show cubeInput.nr2 = 1 from rfl,
      show cubeInput.nr3 = 1 from rfl, show cubeInput.natoms = 1 from rfl]
    rw [Finset.sum_range_one, Finset.sum_range_one, Finset.sum_range_one]
    rw [if_pos (by decide : (cellIndex cubeInput 0 0 0 + 1) % 28 = 1)]
    rw [Finset.sum_range_one, Finset.sum_range_one]
  rw [hmd, hws]
  have hpos : 0 < (springsFor cubeInput 1e-7 0 0 0 0 0).length := by
    rw [springsFor, List.length_map]
    exact selectedCopies_length_pos cubeInput 1e-7 0 0 0 0 0 (by norm_num)
  omega

theorem workerSprings_le_maxdim_witness :
    0 < 2 ∧ (2 ∣ (chainInput constPhi).nr1 * (chainInput constPhi).nr2 *
      (chainInput constPhi).nr3) ∧
    workerSprings (chainInput constPhi) 1e-7 2 1 ≤ maxdim (chainInput constPhi) 2 :=
  ⟨by norm_num, by decide,
    workerSprings_le_maxdim (chainInput constPhi) 1e-7 2 1 (by norm_num) (by decide)⟩

end Phonons
